import Mathlib

/-!
Verification of the stream-analyser chat-analysis pipeline
(`streamanalyser/modules/chatanalyser.py` and
`streamanalyser/modules/keyphrase_finder.py`).

The Python code is shallowly embedded: integer seconds become `Nat`,
floating-point frequency values become `Rat` (the code only adds,
subtracts, divides and compares them), Python lists become `List`,
Python dictionaries are represented through their final sorted key/value
lists, and raising an exception becomes returning `Except.error`.
Python's stable `sorted` builtin is modelled by `List.insertionSort`,
which is also a stable sort and therefore produces the same output for
a total preorder key.
-/

namespace StreamAnalyser

/-- Python's stable `sorted(xs, key=...)`, modelled by the (stable)
structural insertion sort so that terms reduce by `decide`/`rfl`. -/
def sortPy {α : Type} (le : α → α → Prop) [DecidableRel le] (l : List α) : List α :=
  List.insertionSort le l

/-! ## Highlight stubs (`structures.Highlight`, the fields the analysis writes) -/

/-- The fields of `structures.Highlight` produced by
`ChatAnalyser.detect_highlight_times`: stream id, start time (`time`),
`duration`, and the frequency delta `fdelta`. -/
structure HL where
  stream_id : String
  time : Nat
  duration : Nat
  fdelta : Rat
deriving DecidableEq, Repr

/-! ## `ChatAnalyser.get_frequency`

`get_frequency` counts messages per integer second into a dict, fills the
seconds `0 .. last-1` (`range(self.messages[-1].time)`) with `0` when
absent, and finally rebuilds the dict with its keys sorted ascending.
Only the message times matter, so the embedding takes `times : List Nat`
(the time of each message, in input order).  The dict is represented by
its final, sorted association list.  A key's value is `1`-per-occurrence
for counted seconds and `0` for filled seconds, which in both cases is
`times.count k`. -/

/-- Keys of a Python dict in insertion order: first occurrences kept. -/
def dictKeys (l : List Nat) : List Nat :=
  l.foldl (fun acc t => if t ∈ acc then acc else acc ++ [t]) []

/-- Keys of `message_frequency` after counting and blank-filling:
the message times, then every second in `range(last_time)` not already
present.  (`insertFill` folds the fill loop over the counting keys.) -/
def freqKeys (times : List Nat) : List Nat :=
  (List.range (times.getLastD 0)).foldl
    (fun acc s => if s ∈ acc then acc else acc ++ [s]) (dictKeys times)

/-- `ChatAnalyser.get_frequency`, for a non-empty message list
(`messages[-1]` is `times.getLastD 0`; the Python code indexes
`messages[-1]` and so is only called on non-empty input). -/
def get_frequency (times : List Nat) : List (Nat × Nat) :=
  (sortPy (· ≤ ·) (freqKeys times)).map (fun k => (k, times.count k))

/-! ## `ChatAnalyser.create_highlight_annotation`

For each adjacent pair of the smoothed series it emits `1` when the
series increases, `-1` when it decreases and `0` otherwise.  (The Python
loop runs over `range(len)` and breaks at the last index, i.e. it maps
over `range(len - 1)`.)  The name drops the trailing `annotation` of the
Python method name. -/

/-- `ChatAnalyser.create_highlight_annotation` (the trend annotation). -/
def create_highlight_annot (avg : List Rat) : List Int :=
  (List.range (avg.length - 1)).map (fun i =>
    if avg.getD i 0 < avg.getD (i + 1) 0 then 1
    else if avg.getD (i + 1) 0 < avg.getD i 0 then -1
    else 0)

/-! ## `ChatAnalyser.detect_highlight_times`

The detector loop keeps two mutable locals, `start_time` (initially `0`,
`0` also acting as the IDLE sentinel through `if not start_time`) and
`initial_frequency`, and appends found highlights to `self.highlights`.
The loop body is `detectStep`; the loop itself is a fold over the index
range. -/

/-- The detector's loop state: `start_time`, `initial_frequency`, and the
accumulated `self.highlights`. -/
structure DetState where
  start : Nat
  init : Rat
  acc : List HL
deriving DecidableEq, Repr

/-- One iteration of the `detect_highlight_times` loop at index `t`:
first `if not start_time and annotation[t] == 1`, then
`if start_time and annotation[t] != 1` with the duration and delta
checks. -/
def detectStep (sid : String) (minDur : Nat) (ann : List Int) (avg : List Rat)
    (st : DetState) (t : Nat) : DetState :=
  let st :=
    if st.start = 0 ∧ ann.getD t 0 = 1 then
      { st with start := t, init := avg.getD t 0 }
    else st
  if st.start ≠ 0 ∧ ann.getD t 0 ≠ 1 then
    let dur := t - st.start
    if dur < minDur then { st with start := 0 }
    else
      let delta := avg.getD t 0 - st.init
      if delta < 0 then { st with start := 0 }
      else { start := 0, init := st.init,
             acc := st.acc ++ [⟨sid, st.start, dur, delta⟩] }
  else st

/-- The detector loop over a list of indices. -/
def detectLoop (sid : String) (minDur : Nat) (ann : List Int) (avg : List Rat)
    (st : DetState) : List Nat → DetState
  | [] => st
  | t :: ts => detectLoop sid minDur ann avg (detectStep sid minDur ann avg st t) ts

/-- `ChatAnalyser.detect_highlight_times`: run the loop over
`range(len(annotation))` from the initial state and return the
accumulated highlight list. -/
def detect_highlight_times (sid : String) (minDur : Nat) (ann : List Int)
    (avg : List Rat) : List HL :=
  (detectLoop sid minDur ann avg ⟨0, 0, []⟩ (List.range' 0 ann.length)).acc

/-! ## `ChatAnalyser.correct_highlights`

The Python method removes elements of `self.highlights` *while iterating
over it with `enumerate`*: after `list.remove`, the iterator's next index
skips the element that slid into the removed slot.  `removeLoop` models
exactly that: `i` is the iterator index and `List.erase` is
`list.remove` (first element equal to the argument). -/

/-- Python's `for i, x in enumerate(l): if p x: l.remove(x)` pattern,
written with explicit fuel so that it is structurally recursive (and
hence reduces in the kernel).  The iterator index `i` rises by one per
step and the list never grows, so the iteration stops (a `none` lookup)
after at most `l.length` steps below the starting index: fuel
`l.length + 1 - i` is always enough, and `removeLoop` supplies it. -/
def removeLoopF {α : Type} [DecidableEq α] (p : α → Bool) :
    Nat → Nat → List α → List α
  | 0, _, l => l
  | fuel + 1, i, l =>
    match l.get? i with
    | none => l
    | some x =>
      if p x then removeLoopF p fuel (i + 1) (l.erase x)
      else removeLoopF p fuel (i + 1) l

/-- The remove-while-iterating loop from iterator index `0`. -/
def removeLoop {α : Type} [DecidableEq α] (p : α → Bool) (l : List α) : List α :=
  removeLoopF p (l.length + 1) 0 l

/-- `ChatAnalyser.correct_highlights` with threshold constant `c`:
return `[]` on empty input, unconditionally `pop(0)` when more than one
highlight exists, compute the average duration of the remaining
highlights, then remove (while iterating) every highlight whose duration
is `<=` average / `c`. -/
def correct_highlights (c : Rat) (hls : List HL) : List HL :=
  if hls = [] then []
  else
    let hls := if hls.length ≠ 1 then hls.drop 1 else hls
    let avg : Rat := ((hls.map (fun h => (h.duration : Rat))).sum) / hls.length
    removeLoop (fun h => decide ((h.duration : Rat) ≤ avg / c)) hls

/-- Modelled from the spec: the HighlightCorrector as §4.6 words it —
after the unconditional drop of the first element, *filter-and-rebuild*
keeping exactly the highlights with `duration > avgDuration / c`. -/
def correct_highlights_spec (c : Rat) (hls : List HL) : List HL :=
  if hls = [] then []
  else
    let hls := if hls.length ≠ 1 then hls.drop 1 else hls
    let avg : Rat := ((hls.map (fun h => (h.duration : Rat))).sum) / hls.length
    hls.filter (fun h => decide (avg / c < (h.duration : Rat)))

/-! ## `ChatAnalyser.init_intensity`

`Intensity` keeps the level name, the constant and the display colour.
Colours are opaque strings here.  The validation mirrors the Python code
*exactly*, including the chained comparison
`len(levels) != len(constants) != len(colors)` (which is
`len(levels) != len(constants) and len(constants) != len(colors)`), and
the construction loop `for i in range(len(levels))`, which raises
`IndexError` when `colors` (or `constants`) is too short and silently
ignores surplus elements. -/

/-- `structures.Intensity`. -/
structure Intensity where
  level : String
  constant : Rat
  color : String
deriving DecidableEq, Repr

/-- The errors `init_intensity` can raise. -/
inductive IntensityError
  | differentListSize
  | constantsNotAscending
  | constantsNotUnique
  | indexError
deriving DecidableEq, Repr

/-- Default levels (`["medium", "high", "very high", "ultra high"]`). -/
def defaultLevels : List String := ["medium", "high", "very high", "ultra high"]

/-- Default constants (`[0, 0.7, 1.4, 2.1]`). -/
def defaultConstants : List Rat := [0, 7/10, 14/10, 21/10]

/-- Default colours (colorama `YELLOW, BLUE, RED, MAGENTA`). -/
def defaultColors : List String := ["YELLOW", "BLUE", "RED", "MAGENTA"]

/-- `ChatAnalyser.init_intensity`. -/
def init_intensity (levels0 : List String) (constants0 : List Rat)
    (colors0 : List String) : Except IntensityError (List Intensity) :=
  let levels := if levels0 = [] then defaultLevels else levels0
  let constants := if constants0 = [] then defaultConstants else constants0
  let colors := if colors0 = [] then defaultColors else colors0
  if levels.length ≠ constants.length ∧ constants.length ≠ colors.length then
    .error .differentListSize
  else if constants ≠ sortPy (· ≤ ·) constants then
    .error .constantsNotAscending
  else if constants.dedup.length ≠ constants.length then
    .error .constantsNotUnique
  else
    (List.range levels.length).mapM (fun i =>
      match levels.get? i, constants.get? i, colors.get? i with
      | some l, some c, some col => .ok ⟨l, c, col⟩
      | _, _, _ => .error .indexError)

/-! ## `ChatAnalyser.set_highlight_intensities`

For each highlight the code walks the intensity list in order and
overwrites `highlight.intensity` whenever `fdelta > avg * constant`, so
the *last* (highest-index, hence highest-constant for an ascending
configuration) satisfied threshold wins.  The intensity is recorded as
its index into the configuration list; a highlight that satisfies no
threshold keeps its previous value (`none` for fresh pipeline output). -/

/-- A highlight together with its (optional) assigned intensity index. -/
structure HLI where
  time : Nat
  fdelta : Rat
  intensity : Option Nat
deriving DecidableEq, Repr

/-- The inner loop of `set_highlight_intensities` for one highlight:
fold over the enumerated constants, overwriting on every satisfied
threshold, starting from the highlight's current intensity. -/
def assignIntensity (cs : List Rat) (avg d : Rat) (start : Option Nat) : Option Nat :=
  cs.enum.foldl (fun acc p => if avg * p.2 < d then some p.1 else acc) start

/-- `ChatAnalyser.set_highlight_intensities` (constants `cs`): average the
frequency deltas and assign each highlight the last satisfied
threshold's index. -/
def set_highlight_intensities (cs : List Rat) (hls : List HLI) : List HLI :=
  if hls = [] then []
  else
    let avg : Rat := (hls.map (fun h => h.fdelta)).sum / hls.length
    hls.map (fun h => { h with intensity := assignIntensity cs avg h.fdelta h.intensity })

/-! ## `ChatAnalyser.get_highlight_keyphrases`

The method walks `self.highlights` with `enumerate`, removing (via
`list.remove`, again while iterating) every highlight whose keyphrase
analysis comes back empty, writing the keywords in place otherwise, and
returning the whole current list early (`return self.highlights`) as
soon as it meets a highlight with no messages.  The keyphrase analysis
itself runs the external NLTK tokeniser over the highlight's messages,
so it enters the embedding as a parameter `kw` mapping a highlight's
messages to the found keyphrases; the claim under verification is about
the loop, which is embedded verbatim. -/

/-- A highlight as `get_highlight_keyphrases` sees it: its attributed
messages (opaque ids) and its keyword list. -/
structure HLK where
  time : Nat
  messages : List Nat
  keywords : List String
deriving DecidableEq, Repr

/-- The `get_highlight_keyphrases` loop from iterator index `i`, with
explicit fuel for structural recursion (sufficient for the same reason
as in `removeLoopF`: the index rises, the list never grows). -/
def keyphraseLoopF (kw : List Nat → List String) :
    Nat → Nat → List HLK → List HLK
  | 0, _, hls => hls
  | fuel + 1, i, hls =>
    match hls.get? i with
    | none => hls
    | some hl =>
      if hl.messages = [] then hls
      else
        let ks := kw hl.messages
        if ks ≠ [] then
          keyphraseLoopF kw fuel (i + 1) (hls.set i { hl with keywords := ks })
        else keyphraseLoopF kw fuel (i + 1) (hls.erase hl)

/-- `ChatAnalyser.get_highlight_keyphrases` (empty input short-circuits
to `[]`; otherwise the enumerate loop from index 0). -/
def get_highlight_keyphrases (kw : List Nat → List String) (hls : List HLK) :
    List HLK :=
  if hls = [] then [] else keyphraseLoopF kw (hls.length + 1) 0 hls

/-! ## Context loading: `_check_contexts` and `parse_contexts`

Raw context records are duck-typed dictionaries in Python; missing keys
are modelled with `Option`.  `_check_contexts` skips (autofix) or
rejects records without a `reaction_to` key and merges (autofix) or
rejects duplicated reactions, concatenating the duplicate's triggers
onto the first occurrence.  `parse_contexts` converts each surviving
record to the `Context` dataclass, skipping corrupt records under
autofix, and raises the all-corrupt error when autofix produced no
context although its input was non-empty. -/

/-- A raw (pre-validation) trigger record. -/
structure RawTrigger where
  phrase : Option String
  is_exact : Option Bool
deriving DecidableEq, Repr

/-- A raw (pre-validation) context record. -/
structure RawContext where
  reaction_to : Option String
  triggers : Option (List RawTrigger)
deriving DecidableEq, Repr

/-- `structures.Trigger`. -/
structure Trigger where
  phrase : String
  is_exact : Bool
deriving DecidableEq, Repr

/-- `structures.Context`. -/
structure Context where
  reaction_to : String
  triggers : List Trigger
deriving DecidableEq, Repr

/-- The exceptions the context pipeline can raise: `KeyError`,
`DuplicateContextException`, `UnexpectedException`, `AttributeError` /
`TypeError` from `None.extend` / `extend(None)`, a parse error
re-raised without autofix, and `ContextsAllCorruptException`. -/
inductive CtxError
  | keyError
  | duplicateContext
  | unexpected
  | attributeError
  | typeError
  | parseError
  | allContextsCorrupt
deriving DecidableEq, Repr

/-- The `_check_contexts` loop: `seen` is the set of already-seen
reaction values, `acc` is `new_contexts`. -/
def checkLoop (autofix : Bool) (seen : List String) (acc : List RawContext) :
    List RawContext → Except CtxError (List RawContext)
  | [] => .ok acc
  | c :: cs =>
    match c.reaction_to with
    | none => if autofix then checkLoop autofix seen acc cs else .error .keyError
    | some r =>
      if r ∈ seen then
        if autofix then
          match acc.findIdx? (fun nc => nc.reaction_to == some r) with
          | none => .error .unexpected
          | some i =>
            match acc.get? i with
            | none => .error .unexpected
            | some nc =>
              match nc.triggers, c.triggers with
              | none, _ => .error .attributeError
              | some _, none => .error .typeError
              | some t1, some t2 =>
                checkLoop autofix seen
                  (acc.set i { nc with triggers := some (t1 ++ t2) }) cs
        else .error .duplicateContext
      else checkLoop autofix (seen ++ [r]) (acc ++ [c]) cs

/-- `ChatAnalyser._check_contexts`. -/
def check_contexts (autofix : Bool) (ctxs : List RawContext) :
    Except CtxError (List RawContext) :=
  checkLoop autofix [] [] ctxs

/-- Parsing one raw trigger (`Trigger(phrase=..., is_exact=...)`). -/
def parseTrigger (t : RawTrigger) : Option Trigger :=
  match t.phrase, t.is_exact with
  | some p, some e => some ⟨p, e⟩
  | _, _ => none

/-- Parsing one raw context record; `none` models the `except` branch. -/
def parseContext (c : RawContext) : Option Context :=
  match c.reaction_to, c.triggers with
  | some r, some ts => (ts.mapM parseTrigger).map (fun pts => ⟨r, pts⟩)
  | _, _ => none

/-- The `parse_contexts` accumulation loop. -/
def parseLoop (autofix : Bool) (acc : List Context) :
    List RawContext → Except CtxError (List Context)
  | [] => .ok acc
  | c :: cs =>
    match parseContext c with
    | some pc => parseLoop autofix (acc ++ [pc]) cs
    | none => if autofix then parseLoop autofix acc cs else .error .parseError

/-- `ChatAnalyser.parse_contexts`: parse all records, then raise the
all-corrupt error iff autofix is on, nothing parsed, and the input list
was non-empty. -/
def parse_contexts (autofix : Bool) (ctxs : List RawContext) :
    Except CtxError (List Context) := do
  let parsed ← parseLoop autofix [] ctxs
  if autofix = true ∧ parsed = [] ∧ ctxs ≠ [] then .error .allContextsCorrupt
  else .ok parsed

/-- The merge/validation/parse pipeline of `ChatAnalyser.get_contexts`
after the file reads: `_check_contexts` then `parse_contexts` (the
latter consuming the checked list, as `self.contexts` does). -/
def get_contexts_pipeline (autofix : Bool) (ctxs : List RawContext) :
    Except CtxError (List Context) := do
  let checked ← check_contexts autofix ctxs
  parse_contexts autofix checked

/-- A raw record that the parse step cannot convert (a "malformed"
record in the claim's sense: any missing key). -/
def ParseFails (c : RawContext) : Prop := parseContext c = none

instance (c : RawContext) : Decidable (ParseFails c) := by
  unfold ParseFails; infer_instance

/-! ## `KeyphraseFinder.ngram_keyphrase_analysis`

The n-gram sweep works over the token stream produced by the NLTK
tokenisation (`self.tokens`), which the claims quantify over, so the
embedding takes the token stream directly.  Tokens and joined phrases
are character lists (`List Char`), so Python's substring test `in` is
list-infix `<:+:` and `str.replace` is `strReplace`.
`FreqDist.most_common` is a Counter: distinct items in first-occurrence
order, stably sorted by descending count (CPython's `nlargest` is
stable), truncated to the top `k`. -/

/-- The `%phrase_end%` sentinel inserted between messages. -/
def PHRASE_END_DELIM : List Char := "%phrase_end%".toList

/-- Helper for `strReplace`: replace every non-overlapping occurrence of
the non-empty pattern `p0 :: ps`, scanning left to right. -/
def strReplaceGo (p0 : Char) (ps rep : List Char) : List Char → List Char
  | [] => []
  | c :: rest =>
    if (p0 :: ps).isPrefixOf (c :: rest) then
      rep ++ strReplaceGo p0 ps rep (rest.drop ps.length)
    else c :: strReplaceGo p0 ps rep rest
termination_by l => l.length
decreasing_by
  · have := List.length_drop ps.length rest
    simp only [List.length_cons]
    omega
  · simp only [List.length_cons]
    omega

/-- Python `s.replace(pat, rep)` on character lists (the empty pattern
interleaves `rep` around every character, as in CPython). -/
def strReplace (pat rep s : List Char) : List Char :=
  match pat with
  | [] => rep ++ (s.map (fun c => c :: rep)).flatten
  | p0 :: ps => strReplaceGo p0 ps rep s

/-- `KeyphraseFinder._fix_token`: apply every configured fix phrase. -/
def fixToken (fixPhrases : List (List Char × List Char)) (t : List Char) :
    List Char :=
  fixPhrases.foldl (fun m p => strReplace p.1 p.2 m) t

/-- `nltk.ngrams`: all contiguous windows of length `n`. -/
def ngrams {α : Type} (n : Nat) (ts : List α) : List (List α) :=
  (List.range (ts.length + 1 - n)).map (fun i => (ts.drop i).take n)

/-- Distinct elements in first-occurrence order (a Counter's keys). -/
def firstOccur {α : Type} [DecidableEq α] (l : List α) : List α :=
  l.foldl (fun acc x => if x ∈ acc then acc else acc ++ [x]) []

/-- `FreqDist(l).most_common(k)`: count each distinct element, stably
sort by descending count, take the first `k`. -/
def mostCommon {α : Type} [DecidableEq α] (k : Nat) (l : List α) :
    List (α × Nat) :=
  (sortPy (fun a b => b.2 ≤ a.2) ((firstOccur l).map (fun g => (g, l.count g)))).take k

/-- One accepted keyphrase tuple
`(message, frequency, ngram_size, weighted_score)`. -/
structure KTup where
  msg : List Char
  freq : Nat
  size : Nat
  score : Nat
deriving DecidableEq, Repr

/-- The finder's configuration: fix phrases, the punctuation list, the
monogram stop list and the (optional, possibly empty) stop words. -/
structure KFConfig where
  fixPhrases : List (List Char × List Char)
  punctuation : List Char
  monogramStopWords : List (List Char)
  stopWords : List (List Char)

/-- `all(ch in punctuation_list for ch in message)`. -/
def allPunct (punct : List Char) (msg : List Char) : Bool :=
  msg.all (fun ch => punct.contains ch)

/-- The scan of `seen_tuples` for a non-punctuation candidate: `none`
models `skip`; `some seen'` is the list after a possible
weighted-score eviction (`seen_tuples.remove(tup)` of the first
containing tuple), after which the caller appends the candidate. -/
def scanSeen (replace : Bool) (msg : List Char) (score : Nat) :
    List KTup → Option (List KTup)
  | [] => some []
  | t :: rest =>
    if msg <:+: t.msg then
      if replace = false then none
      else if t.score < score then some rest
      else none
    else
      match scanSeen replace msg score rest with
      | none => none
      | some rest' => some (t :: rest')

/-- The body of the inner candidate loop: all the `continue` filters,
the punctuation-only duplicate check, and the `seen_tuples` scan.
`none` is `continue`; `some seen'` is the new `seen_tuples` after the
append. -/
def processCandidate (cfg : KFConfig) (replace : Bool) (size : Nat)
    (seen : List KTup) (cand : List (List Char) × Nat) : Option (List KTup) :=
  let msg := fixToken cfg.fixPhrases (List.intercalate [' '] cand.1)
  let freq := cand.2
  let score := freq * size
  if msg = [] then none
  else if freq ≤ 1 then none
  else if PHRASE_END_DELIM <:+: msg then none
  else if size = 1 ∧ msg ∈ cfg.monogramStopWords then none
  else if 1 < size ∧ ∃ sw ∈ cfg.stopWords, sw <:+: msg then none
  else if allPunct cfg.punctuation msg then
    if ∃ t ∈ seen, t.msg = msg then none
    else some (seen ++ [⟨msg, freq, size, score⟩])
  else
    match scanSeen replace msg score seen with
    | none => none
    | some seen' => some (seen' ++ [⟨msg, freq, size, score⟩])

/-- The candidate loop for one n-gram size.  `Sum.inl` continues to the
next size with the updated `seen_tuples`; `Sum.inr` is the early
`return` taken when the maximum amount is reached or the minimum size
is being processed. -/
def processSize (cfg : KFConfig) (replace : Bool) (size maxAmt minSize : Nat)
    (seen : List KTup) : List (List (List Char) × Nat) → (List KTup) ⊕ (List KTup)
  | [] => Sum.inl seen
  | c :: cs =>
    match processCandidate cfg replace size seen c with
    | none => processSize cfg replace size maxAmt minSize seen cs
    | some seen' =>
      if seen'.length = maxAmt ∨ size = minSize then Sum.inr seen'
      else processSize cfg replace size maxAmt minSize seen' cs

/-- The size sweep from the largest to the smallest n-gram size. -/
def sweep (cfg : KFConfig) (replace : Bool) (tokens : List (List Char))
    (maxAmt minSize topK : Nat) (seen : List KTup) : List Nat → List KTup
  | [] => seen
  | s :: ss =>
    match processSize cfg replace s maxAmt minSize seen
        (mostCommon topK (ngrams s tokens)) with
    | Sum.inl seen' => sweep cfg replace tokens maxAmt minSize topK seen' ss
    | Sum.inr fin => fin

/-- `range(max_ngram_size, min_ngram_size - 1, -1)`. -/
def sizesDesc (hi lo : Nat) : List Nat := (List.range' lo (hi + 1 - lo)).reverse

/-- `KeyphraseFinder.ngram_keyphrase_analysis` over a token stream, with
the keyphrase-amount configuration already applied: sweep the sizes,
then sort the accepted tuples by weighted score, descending (both the
early and the final `return` sort the same way). -/
def ngram_keyphrase_analysis (cfg : KFConfig) (tokens : List (List Char))
    (maxNgramSize maxAmt minNgramSize topK : Nat) (replace : Bool) : List KTup :=
  sortPy (fun a b : KTup => b.score ≤ a.score)
    (sweep cfg replace tokens maxAmt minNgramSize topK []
      (sizesDesc maxNgramSize minNgramSize))

/-- Verification predicate for the `seen_tuples` accumulator while the
sweep is processing n-gram size `s`: every accepted tuple has size at
least `s`, and no accepted non-punctuation tuple is a substring of a
tuple accepted at a strictly larger size. -/
def SeenInv (punct : List Char) (s : Nat) (seen : List KTup) : Prop :=
  (∀ t ∈ seen, s ≤ t.size) ∧
  (∀ t1 ∈ seen, ∀ t2 ∈ seen, t2.size < t1.size →
    allPunct punct t2.msg = false → ¬ (t2.msg <:+: t1.msg))

deriving instance DecidableEq for Except

attribute [local semireducible] Rat.sub Rat.mul Rat.inv Rat.add

/-!
# Theorems

The remainder of the file settles the claims.  The `local semireducible`
attribute above only re-enables kernel evaluation of the rational
arithmetic used by `decide` on concrete inputs.
-/

/-- C2 evaluated at a failing input.  The claim asks for
filter-and-rebuild semantics: with threshold constant 3 and detector
output durations `[99, 1, 1, 16]`, the first highlight is dropped, the
remaining average duration is 6, and both duration-1 highlights are
`<= 6 / 3 = 2`, so exactly `[16]` should survive.  The code removes the
first duration-1 highlight while iterating, skips the element that
slides into its slot, and therefore returns the second duration-1
highlight as well — the spec-worded `correct_highlights_spec` returns
`[16]` on the same input. -/
theorem correct_highlights_skips_after_removal :
    correct_highlights 3
        [⟨"s", 10, 99, 0⟩, ⟨"s", 40, 1, 0⟩, ⟨"s", 50, 1, 0⟩, ⟨"s", 60, 16, 0⟩] =
      [⟨"s", 50, 1, 0⟩, ⟨"s", 60, 16, 0⟩] ∧
    correct_highlights_spec 3
        [⟨"s", 10, 99, 0⟩, ⟨"s", 40, 1, 0⟩, ⟨"s", 50, 1, 0⟩, ⟨"s", 60, 16, 0⟩] =
      [⟨"s", 60, 16, 0⟩] := by
  decide

/-- C3 evaluated at a failing input.  Both highlights have messages and
both keyphrase analyses come back empty (the keyphrase analysis is the
`kw` parameter; here it is constantly `[]`, and the final conjunct
shows the real n-gram analysis does produce `[]` for a highlight whose
tokens all occur once).  The claim requires both highlights to be
removed; the code removes the first, the iterator skips the second, and
the returned list retains a highlight with zero keywords. -/
theorem keyphrase_removal_retains_keywordless :
    get_highlight_keyphrases (fun _ => []) [⟨1, [10], []⟩, ⟨2, [20], []⟩] =
      [⟨2, [20], []⟩] ∧
    (HLK.mk 2 [20] []).keywords = [] ∧
    ngram_keyphrase_analysis ⟨[], [], [], []⟩
      ["hello".toList, PHRASE_END_DELIM] 7 4 1 20 false = [] := by
  decide

/-- C7 evaluated at failing inputs.  The guard
`len(levels) != len(constants) != len(colors)` is a Python chained
comparison, so it does not fire when `levels` and `constants` have
equal lengths and `colors` differs: with one surplus colour the call
*succeeds* and silently ignores the extra colour, and with a missing
colour it raises `IndexError` during construction — in neither case the
mismatched-list-length error the claim requires. -/
theorem init_intensity_length_check_bug :
    init_intensity ["a"] [0] ["y", "z"] = .ok [⟨"a", 0, "y"⟩] ∧
    init_intensity ["a", "b"] [0, 1] ["x"] = .error .indexError := by
  decide

/-- C1 counterexample.  The initial detector state is IDLE and the
trend annotation `[1, 1, 1, 1, 1, 1, 0]` starts with `+1` at index 0;
the run ends at index 6 with duration `6 >= minDuration = 5` and delta
`smoothed[6] - smoothed[0] = 6 >= 0`, so the claim (which includes
`i = 0`) predicts the highlight `(start 0, duration 6, delta 6)`.
Because `start_time = 0` is also the code's IDLE sentinel
(`if not start_time`), the run is instead re-started at index 1 and the
only emitted highlight is `(start 1, duration 5, delta 5)`. -/
theorem detector_zero_index_counterexample :
    detect_highlight_times "s" 5 [1, 1, 1, 1, 1, 1, 0] [0, 1, 2, 3, 4, 5, 6, 6] =
      [⟨"s", 1, 5, 5⟩] ∧
    HL.mk "s" 0 6 6 ∉
      detect_highlight_times "s" 5 [1, 1, 1, 1, 1, 1, 0] [0, 1, 2, 3, 4, 5, 6, 6] := by
  decide

/-- C4 counterexample.  On detector output with durations `[9, 5, 5]`
the first run pops the leading highlight and keeps `[5, 5]` (average 5,
threshold 5/3).  The second run is *not* a no-op: it unconditionally
pops the first element again, returning `[5]`. -/
theorem correct_highlights_not_idempotent :
    correct_highlights 3
        (correct_highlights 3 [⟨"s", 1, 9, 0⟩, ⟨"s", 20, 5, 0⟩, ⟨"s", 30, 5, 0⟩]) ≠
      correct_highlights 3 [⟨"s", 1, 9, 0⟩, ⟨"s", 20, 5, 0⟩, ⟨"s", 30, 5, 0⟩] := by
  decide

/-- C9 counterexample.  A loaded context list whose single record is
malformed by a missing `reaction_to` key: `_check_contexts` with
autofix skips it, `parse_contexts` then sees an *empty* input, so the
all-corrupt guard (`len(self.contexts) != 0`) does not fire and the
pipeline returns an empty context list instead of raising the
all-contexts-corrupt error the claim requires. -/
theorem pipeline_missing_keys_counterexample :
    get_contexts_pipeline true [⟨none, none⟩] = .ok [] ∧
    ParseFails ⟨none, none⟩ := by
  constructor
  · decide
  · decide

/-- C8 counterexample.  Token stream
`hi !? <end> hi !? <end>` with punctuation list `['!', '?']`, sizes 2
down to 1, weighted-score replacement disabled: the 2-gram `hi !?` is
accepted, and the later 1-gram `!?` — whose text is a substring of the
accepted phrase — is *also* accepted, because the code treats
punctuation-only candidates separately (only exact duplicates are
suppressed).  The claim predicts `!?` cannot appear in the result. -/
theorem ngram_punct_substring_counterexample :
    ngram_keyphrase_analysis ⟨[], ['!', '?'], [], []⟩
        ["hi".toList, "!?".toList, PHRASE_END_DELIM,
         "hi".toList, "!?".toList, PHRASE_END_DELIM] 2 5 1 20 false =
      [⟨"hi !?".toList, 2, 2, 4⟩, ⟨"!?".toList, 2, 1, 2⟩] ∧
    ("!?".toList <:+: "hi !?".toList) ∧ (1 : Nat) < 2 := by
  refine ⟨by decide, by decide, by decide⟩

/-- The corrector returns `[]` on empty input. -/
theorem correct_highlights_nil (c : Rat) : correct_highlights c [] = [] := by
  simp [correct_highlights]

/-- The corrector keeps a singleton whose duration is positive, for any
threshold constant greater than 1: there is no pop (`len == 1`), the
average equals the single duration `d`, and `d <= d / c` fails. -/
theorem correct_highlights_singleton (c : Rat) (h : HL) (hc : 1 < c)
    (hd : 0 < h.duration) : correct_highlights c [h] = [h] := by
  have hd' : (0 : Rat) < (h.duration : Rat) := by exact_mod_cast hd
  have hlt : (h.duration : Rat) / c < (h.duration : Rat) := div_lt_self hd' hc
  unfold correct_highlights
  simp [removeLoop, removeLoopF, not_le.mpr hlt]

/-- C4 amended: re-running `correct_highlights` on its own output is a
no-op when that output has at most one highlight, the threshold
constant exceeds 1, and the surviving highlight (if any) has a positive
duration.  (In general the claim fails: with two or more surviving
highlights the second run pops the first element again, see the
counterexample.) -/
theorem correct_highlights_second_run_small (c : Rat) (L : List HL) (hc : 1 < c)
    (hlen : (correct_highlights c L).length ≤ 1)
    (hpos : ∀ h ∈ correct_highlights c L, 0 < h.duration) :
    correct_highlights c (correct_highlights c L) = correct_highlights c L := by
  cases hm : correct_highlights c L with
  | nil => exact correct_highlights_nil c
  | cons h t =>
    cases t with
    | nil =>
      have hd : 0 < h.duration := by
        refine hpos h ?_
        rw [hm]
        exact List.mem_singleton_self h
      exact correct_highlights_singleton c h hc hd
    | cons h2 t2 =>
      rw [hm] at hlen
      simp at hlen

/-- C4 witness: a singleton detector output for which the second
corrector run provably returns the first run's output unchanged. -/
theorem correct_highlights_second_run_small_witness :
    correct_highlights 3 (correct_highlights 3 [⟨"s", 5, 4, 0⟩]) =
      correct_highlights 3 [⟨"s", 5, 4, 0⟩] :=
  correct_highlights_second_run_small 3 [⟨"s", 5, 4, 0⟩] (by decide) (by decide)
    (by decide)

/-- `_check_contexts` passes every record through unchanged when every
record has a `reaction_to` key and no reaction value repeats. -/
theorem checkLoop_all_fresh (ctxs : List RawContext) :
    ∀ (seen : List String) (acc : List RawContext),
    (∀ c ∈ ctxs, ∀ r, c.reaction_to = some r → r ∉ seen) →
    ((ctxs.map fun c => c.reaction_to).Nodup) →
    (∀ c ∈ ctxs, c.reaction_to ≠ none) →
    checkLoop true seen acc ctxs = .ok (acc ++ ctxs) := by
  induction ctxs with
  | nil => intro seen acc _ _ _; simp [checkLoop]
  | cons c cs ih =>
    intro seen acc hfresh hnd hkeys
    obtain ⟨r, hr⟩ : ∃ r, c.reaction_to = some r := by
      cases hc : c.reaction_to with
      | none => exact absurd hc (hkeys c (List.mem_cons_self c cs))
      | some r => exact ⟨r, rfl⟩
    have hnotin : r ∉ seen := hfresh c (List.mem_cons_self c cs) r hr
    rw [List.map_cons, List.nodup_cons, hr] at hnd
    have step : checkLoop true seen acc (c :: cs) =
        checkLoop true (seen ++ [r]) (acc ++ [c]) cs := by
      conv_lhs => rw [checkLoop.eq_def]
      simp only [hr]
      rw [if_neg hnotin]
    rw [step, ih (seen ++ [r]) (acc ++ [c]) ?_ ?_ ?_]
    · simp
    · intro c' hc' r' hr' hmem
      rcases List.mem_append.mp hmem with hin | hin
      · exact hfresh c' (List.mem_cons_of_mem c hc') r' hr' hin
      · have hrr : r' = r := by simpa using hin
        refine hnd.1 ?_
        refine List.mem_map.mpr ⟨c', hc', ?_⟩
        rw [hr', hrr]
    · exact hnd.2
    · intro c' hc'
      exact hkeys c' (List.mem_cons_of_mem c hc')

/-- `parse_contexts`'s loop drops every unparsable record under
autofix. -/
theorem parseLoop_all_fail (ctxs : List RawContext)
    (hf : ∀ c ∈ ctxs, ParseFails c) :
    ∀ acc, parseLoop true acc ctxs = .ok acc := by
  induction ctxs with
  | nil => intro acc; simp [parseLoop]
  | cons c cs ih =>
    intro acc
    have hc : parseContext c = none := hf c (List.mem_cons_self c cs)
    unfold parseLoop
    rw [hc]
    exact ih (fun c' hc' => hf c' (List.mem_cons_of_mem c hc')) acc

/-- C9 amended: with autofix enabled, the merge/validation/parse
pipeline raises the all-contexts-corrupt error for a non-empty context
list whose records are *all* malformed, provided each record still has
its `reaction_to` key (with pairwise distinct reaction values) so that
the check phase does not silently drop it first.  (Records missing
`reaction_to` are skipped during `_check_contexts`, and if every record
is malformed that way the pipeline returns an empty list instead — see
the counterexample.) -/
theorem pipeline_all_corrupt_error (ctxs : List RawContext)
    (hne : ctxs ≠ [])
    (hkeys : ∀ c ∈ ctxs, c.reaction_to ≠ none)
    (hnd : (ctxs.map fun c => c.reaction_to).Nodup)
    (hfail : ∀ c ∈ ctxs, ParseFails c) :
    get_contexts_pipeline true ctxs = .error .allContextsCorrupt := by
  unfold get_contexts_pipeline check_contexts
  rw [checkLoop_all_fresh ctxs [] [] (by simp) hnd hkeys]
  show parse_contexts true ([] ++ ctxs) = _
  unfold parse_contexts
  rw [List.nil_append, parseLoop_all_fail ctxs hfail []]
  simp [hne]
  rfl

/-- C9 witness: a single record that keeps its `reaction_to` key but
has no triggers does raise the all-contexts-corrupt error. -/
theorem pipeline_all_corrupt_error_witness :
    get_contexts_pipeline true [⟨some "r", none⟩] = .error .allContextsCorrupt :=
  pipeline_all_corrupt_error [⟨some "r", none⟩] (by decide) (by decide)
    (by decide) (by decide)

/-- Membership in the dict-key fold: the old keys plus the scanned list. -/
theorem foldKeys_mem (l : List Nat) :
    ∀ (acc : List Nat) (x : Nat),
      (x ∈ l.foldl (fun acc t => if t ∈ acc then acc else acc ++ [t]) acc) ↔
        x ∈ acc ∨ x ∈ l := by
  induction l with
  | nil => intro acc x; simp
  | cons a l ih =>
    intro acc x
    rw [List.foldl_cons, ih]
    by_cases ha : a ∈ acc
    · simp only [if_pos ha, List.mem_cons]
      constructor
      · rintro (h | h)
        · exact Or.inl h
        · exact Or.inr (Or.inr h)
      · rintro (h | rfl | h)
        · exact Or.inl h
        · exact Or.inl ha
        · exact Or.inr h
    · simp only [if_neg ha, List.mem_append, List.mem_singleton, List.mem_cons]
      tauto

/-- The dict-key fold preserves key distinctness. -/
theorem foldKeys_nodup (l : List Nat) :
    ∀ (acc : List Nat), acc.Nodup →
      (l.foldl (fun acc t => if t ∈ acc then acc else acc ++ [t]) acc).Nodup := by
  induction l with
  | nil => intro acc h; simpa using h
  | cons a l ih =>
    intro acc h
    rw [List.foldl_cons]
    apply ih
    by_cases ha : a ∈ acc
    · simpa [if_pos ha] using h
    · rw [if_neg ha]
      simp [List.nodup_append, h, ha]

/-- The frequency table's key set: the message times plus the filled
range below the last message time. -/
theorem mem_freqKeys (times : List Nat) (x : Nat) :
    x ∈ freqKeys times ↔ x ∈ times ∨ x < times.getLastD 0 := by
  unfold freqKeys dictKeys
  rw [foldKeys_mem, foldKeys_mem]
  simp only [List.not_mem_nil, false_or, List.mem_range]

/-- The frequency table's keys are distinct. -/
theorem freqKeys_nodup (times : List Nat) : (freqKeys times).Nodup := by
  unfold freqKeys dictKeys
  exact foldKeys_nodup _ _ (foldKeys_nodup _ _ List.nodup_nil)

/-- In a non-decreasing list every element is at most the last one. -/
theorem sorted_le_getLastD (l : List Nat) (hs : l.Chain' (· ≤ ·)) :
    ∀ (d : Nat), ∀ x ∈ l, x ≤ l.getLastD d := by
  induction l with
  | nil => intro d x hx; simp at hx
  | cons a t ih =>
    intro d x hx
    rw [List.getLastD_cons]
    cases t with
    | nil =>
      have hxa : x = a := by simpa using hx
      subst hxa
      simp [List.getLastD]
    | cons b t2 =>
      have hs' : (b :: t2).Chain' (· ≤ ·) := hs.tail
      have hab : a ≤ b := (List.chain'_cons.mp hs).1
      rcases List.mem_cons.mp hx with rfl | hx
      · exact le_trans hab (ih hs' x b (List.mem_cons_self b t2))
      · exact ih hs' x x hx

/-- For a non-empty list, `getLastD` is a member. -/
theorem getLastD_mem_self (l : List Nat) :
    l ≠ [] → ∀ (d : Nat), l.getLastD d ∈ l := by
  induction l with
  | nil => intro h; simp at h
  | cons a t ih =>
    intro _ d
    rw [List.getLastD_cons]
    cases t with
    | nil => simp [List.getLastD]
    | cons b t2 => exact List.mem_cons_of_mem a (ih (by simp) a)

/-- Sums of pointwise sums of maps split. -/
theorem sum_map_add_nat {α : Type} (l : List α) (f g : α → Nat) :
    (l.map (fun x => f x + g x)).sum = (l.map f).sum + (l.map g).sum := by
  induction l with
  | nil => simp
  | cons a t ih =>
    simp only [List.map_cons, List.sum_cons, ih]
    omega

/-- Summing an indicator of `x` over `range n` counts whether `x < n`. -/
theorem sum_map_ite_one (x : Nat) : ∀ (n : Nat),
    ((List.range n).map (fun k => if x = k then 1 else 0)).sum =
      if x < n then 1 else 0 := by
  intro n
  induction n with
  | zero => simp
  | succ n ih =>
    rw [List.range_succ, List.map_append, List.sum_append, ih]
    by_cases h : x < n
    · rw [if_pos h, if_pos (Nat.lt_succ_of_lt h)]
      have hxn : x ≠ n := Nat.ne_of_lt h
      simp [hxn]
    · by_cases hx : x = n
      · subst hx
        simp [h]
      · rw [if_neg h, if_neg (by omega)]
        simp [hx]

/-- Summing per-second counts over a covering range recovers the
message count. -/
theorem sum_range_count (n : Nat) (l : List Nat) (hb : ∀ x ∈ l, x < n) :
    ((List.range n).map (fun k => l.count k)).sum = l.length := by
  induction l with
  | nil => simp [List.count_nil]
  | cons a t ih =>
    have ha : a < n := hb a (List.mem_cons_self a t)
    have ht : ∀ x ∈ t, x < n := fun x hx => hb x (List.mem_cons_of_mem a hx)
    have hcount : ∀ k : Nat, (a :: t).count k = t.count k + (if a = k then 1 else 0) := by
      intro k
      rw [List.count_cons]
      simp [beq_iff_eq]
    simp only [hcount]
    rw [sum_map_add_nat, ih ht, sum_map_ite_one a n, if_pos ha]
    simp

/-- C5: frequency density.  For every non-empty message-time sequence
with non-decreasing times, `get_frequency`'s key list is exactly the
ascending contiguous range `[0, lastTime]`, and its values sum to the
message count. -/
theorem get_frequency_dense (times : List Nat) (hne : times ≠ [])
    (hsorted : times.Chain' (· ≤ ·)) :
    (get_frequency times).map Prod.fst = List.range (times.getLastD 0 + 1) ∧
    ((get_frequency times).map Prod.snd).sum = times.length := by
  have hmem : ∀ x, x ∈ freqKeys times ↔ x < times.getLastD 0 + 1 := by
    intro x
    rw [mem_freqKeys]
    constructor
    · rintro (h | h)
      · exact Nat.lt_succ_of_le (sorted_le_getLastD times hsorted 0 x h)
      · omega
    · intro h
      rcases Nat.lt_succ_iff_lt_or_eq.mp h with h | rfl
      · exact Or.inr h
      · exact Or.inl (getLastD_mem_self times hne 0)
  have hperm : (sortPy (· ≤ ·) (freqKeys times)).Perm (List.range (times.getLastD 0 + 1)) :=
    (List.perm_insertionSort _ _).trans
      ((List.perm_ext_iff_of_nodup (freqKeys_nodup times) (List.nodup_range _)).mpr
        (fun a => by rw [hmem a, List.mem_range]))
  have hkeys : sortPy (· ≤ ·) (freqKeys times) = List.range (times.getLastD 0 + 1) :=
    List.eq_of_perm_of_sorted hperm (List.sorted_insertionSort _ _)
      ((List.pairwise_lt_range _).imp (fun h => le_of_lt h))
  constructor
  · unfold get_frequency
    rw [hkeys, List.map_map]
    simp [Function.comp_def]
  · unfold get_frequency
    rw [hkeys, List.map_map]
    have hsum : ((List.range (times.getLastD 0 + 1)).map
        (fun k => times.count k)).sum = times.length := by
      refine sum_range_count _ times (fun x hx => ?_)
      exact Nat.lt_succ_of_le (sorted_le_getLastD times hsorted 0 x hx)
    simpa [Function.comp_def] using hsum

/-- C5 witness: message times `[0, 2, 2, 3]` give keys `[0, 1, 2, 3]`
and value sum 4. -/
theorem get_frequency_dense_witness :
    (get_frequency [0, 2, 2, 3]).map Prod.fst =
      List.range (([0, 2, 2, 3] : List Nat).getLastD 0 + 1) ∧
    ((get_frequency [0, 2, 2, 3]).map Prod.snd).sum =
      ([0, 2, 2, 3] : List Nat).length :=
  get_frequency_dense [0, 2, 2, 3] (by decide)
    (List.chain'_iff_pairwise.mpr (by decide))

/-- The enumerated constants carry strictly increasing indices. -/
theorem enum_pairwise_fst {α : Type} (l : List α) :
    l.enum.Pairwise (fun p q => p.1 < q.1) := by
  have h := List.pairwise_lt_range l.length
  rw [← List.enum_map_fst l] at h
  exact List.pairwise_map.mp h

/-- Monotonicity of the last-satisfied-threshold fold: a strictly
larger delta can only move the assigned index up, provided the
accumulators are related the same way and bounded by the upcoming
indices. -/
theorem assignFold_mono (avg d1 d2 : Rat) (hd : d1 < d2) :
    ∀ (ps : List (Nat × Rat)) (a1 a2 : Option Nat),
      ps.Pairwise (fun p q => p.1 < q.1) →
      (∀ k, a1 = some k → ∀ p ∈ ps, k < p.1) →
      (∀ k1, a1 = some k1 → ∃ k2, a2 = some k2 ∧ k1 ≤ k2) →
      ∀ k1,
        ps.foldl (fun acc p => if avg * p.2 < d1 then some p.1 else acc) a1 = some k1 →
        ∃ k2,
          ps.foldl (fun acc p => if avg * p.2 < d2 then some p.1 else acc) a2 = some k2 ∧
          k1 ≤ k2 := by
  intro ps
  induction ps with
  | nil =>
    intro a1 a2 _ _ hrel k1 h1
    exact hrel k1 h1
  | cons p ps ih =>
    intro a1 a2 hpw hb1 hrel k1 h1
    rw [List.foldl_cons] at h1
    rw [List.foldl_cons]
    have hhead : ∀ q ∈ ps, p.1 < q.1 := (List.pairwise_cons.mp hpw).1
    have htail : ps.Pairwise (fun p q => p.1 < q.1) := (List.pairwise_cons.mp hpw).2
    by_cases h1f : avg * p.2 < d1
    · have h2f : avg * p.2 < d2 := lt_trans h1f hd
      rw [if_pos h1f] at h1
      rw [if_pos h2f]
      refine ih (some p.1) (some p.1) htail ?_ ?_ k1 h1
      · intro k hk q hq
        cases hk
        exact hhead q hq
      · intro k1' hk1'
        cases hk1'
        exact ⟨p.1, rfl, le_refl _⟩
    · rw [if_neg h1f] at h1
      by_cases h2f : avg * p.2 < d2
      · rw [if_pos h2f]
        refine ih a1 (some p.1) htail ?_ ?_ k1 h1
        · intro k hk q hq
          exact hb1 k hk q (List.mem_cons_of_mem p hq)
        · intro k1' hk1'
          exact ⟨p.1, rfl, le_of_lt (hb1 k1' hk1' p (List.mem_cons_self p ps))⟩
      · rw [if_neg h2f]
        refine ih a1 a2 htail ?_ hrel k1 h1
        intro k hk q hq
        exact hb1 k hk q (List.mem_cons_of_mem p hq)

/-- The intensity pass keeps the highlight count. -/
theorem set_intensities_length (cs : List Rat) (hls : List HLI) :
    (set_highlight_intensities cs hls).length = hls.length := by
  unfold set_highlight_intensities
  by_cases h : hls = [] <;> simp [h]

/-- C6: intensity monotonicity.  For every highlight list and ascending
duplicate-free constants, if two (fresh, previously unclassified)
highlights both receive an intensity index from
`set_highlight_intensities` and the first has the strictly smaller
frequency delta, then its assigned index is not larger: the
last-overwrite loop assigns the highest constant the delta exceeds, and
a bigger delta exceeds every constant a smaller one does. -/
theorem set_intensities_monotone (cs : List Rat) (hls : List HLI)
    (_hasc : cs.Chain' (· < ·)) (i j : Nat) (hi : i < hls.length) (hj : j < hls.length)
    (hni : (hls.getD i ⟨0, 0, none⟩).intensity = none)
    (hnj : (hls.getD j ⟨0, 0, none⟩).intensity = none)
    (hlt : (hls.getD i ⟨0, 0, none⟩).fdelta < (hls.getD j ⟨0, 0, none⟩).fdelta)
    (k1 k2 : Nat)
    (h1 : ((set_highlight_intensities cs hls).getD i ⟨0, 0, none⟩).intensity = some k1)
    (h2 : ((set_highlight_intensities cs hls).getD j ⟨0, 0, none⟩).intensity = some k2) :
    k1 ≤ k2 := by
  have hne : hls ≠ [] := by
    intro h
    rw [h] at hi
    simp at hi
  have hlen : (set_highlight_intensities cs hls).length = hls.length :=
    set_intensities_length cs hls
  unfold set_highlight_intensities at h1 h2
  rw [if_neg hne] at h1 h2
  rw [List.getD_eq_getElem _ _ (by simpa using hi), List.getElem_map] at h1
  rw [List.getD_eq_getElem _ _ (by simpa using hj), List.getElem_map] at h2
  rw [List.getD_eq_getElem _ _ hi] at hni hlt
  rw [List.getD_eq_getElem _ _ hj] at hnj hlt
  simp only at h1 h2
  rw [hni] at h1
  rw [hnj] at h2
  unfold assignIntensity at h1 h2
  obtain ⟨k2', hk2', hle⟩ :=
    assignFold_mono ((hls.map (fun h => h.fdelta)).sum / hls.length)
      (hls[i].fdelta) (hls[j].fdelta) hlt cs.enum none none
      (enum_pairwise_fst cs) (by intro k hk; cases hk) (by intro k hk; cases hk)
      k1 h1
  rw [h2] at hk2'
  cases hk2'
  exact hle

/-- C6 witness: with the default constants, deltas 1 and 2 (average
3/2) receive indices 0 and 1, and 0 <= 1. -/
theorem set_intensities_monotone_witness :
    ((set_highlight_intensities [0, 7/10, 14/10, 21/10]
        [⟨1, 1, none⟩, ⟨2, 2, none⟩]).getD 0 ⟨0, 0, none⟩).intensity = some 0 ∧
    ((set_highlight_intensities [0, 7/10, 14/10, 21/10]
        [⟨1, 1, none⟩, ⟨2, 2, none⟩]).getD 1 ⟨0, 0, none⟩).intensity = some 1 ∧
    (0 : Nat) ≤ 1 := by
  refine ⟨by decide, by decide, ?_⟩
  exact set_intensities_monotone [0, 7/10, 14/10, 21/10] [⟨1, 1, none⟩, ⟨2, 2, none⟩]
    (List.chain'_iff_pairwise.mpr (by decide)) 0 1 (by decide) (by decide)
    (by decide) (by decide) (by decide) 0 1 (by decide) (by decide)

/-- The detector loop splits over index-list concatenation. -/
theorem detectLoop_append (sid : String) (minDur : Nat) (ann : List Int)
    (avg : List Rat) (l1 l2 : List Nat) :
    ∀ (st : DetState),
      detectLoop sid minDur ann avg st (l1 ++ l2) =
        detectLoop sid minDur ann avg (detectLoop sid minDur ann avg st l1) l2 := by
  induction l1 with
  | nil => intro st; rfl
  | cons t ts ih =>
    intro st
    exact ih (detectStep sid minDur ann avg st t)

/-- IDLE state reading `+1`: record start time and initial value. -/
theorem detectStep_start (sid : String) (minDur : Nat) (ann : List Int)
    (avg : List Rat) (st : DetState) (t : Nat)
    (h0 : st.start = 0) (h1 : ann.getD t 0 = 1) :
    detectStep sid minDur ann avg st t =
      { st with start := t, init := avg.getD t 0 } := by
  rw [List.getD_eq_getElem?_getD] at h1
  unfold detectStep
  simp [h0, h1]

/-- IDLE state reading a non-`+1` annotation: nothing happens. -/
theorem detectStep_idle_skip (sid : String) (minDur : Nat) (ann : List Int)
    (avg : List Rat) (st : DetState) (t : Nat)
    (h0 : st.start = 0) (h1 : ann.getD t 0 ≠ 1) :
    detectStep sid minDur ann avg st t = st := by
  rw [List.getD_eq_getElem?_getD] at h1
  unfold detectStep
  simp [h0, h1]

/-- RUNNING state reading `+1`: the run continues unchanged. -/
theorem detectStep_run_continue (sid : String) (minDur : Nat) (ann : List Int)
    (avg : List Rat) (st : DetState) (t : Nat)
    (h0 : st.start ≠ 0) (h1 : ann.getD t 0 = 1) :
    detectStep sid minDur ann avg st t = st := by
  rw [List.getD_eq_getElem?_getD] at h1
  unfold detectStep
  simp [h0, h1]

/-- RUNNING state ending a too-short run: discarded. -/
theorem detectStep_end_short (sid : String) (minDur : Nat) (ann : List Int)
    (avg : List Rat) (st : DetState) (t : Nat)
    (h0 : st.start ≠ 0) (h1 : ann.getD t 0 ≠ 1) (hdur : t - st.start < minDur) :
    detectStep sid minDur ann avg st t = { st with start := 0 } := by
  rw [List.getD_eq_getElem?_getD] at h1
  unfold detectStep
  simp [h0, h1, hdur]

/-- RUNNING state ending a long-enough, non-negative-delta run: a
highlight is appended. -/
theorem detectStep_end_emit (sid : String) (minDur : Nat) (ann : List Int)
    (avg : List Rat) (st : DetState) (t : Nat)
    (h0 : st.start ≠ 0) (h1 : ann.getD t 0 ≠ 1)
    (hdur : ¬ (t - st.start < minDur)) (hdelta : ¬ (avg.getD t 0 - st.init < 0)) :
    detectStep sid minDur ann avg st t =
      ⟨0, st.init,
        st.acc ++ [⟨sid, st.start, t - st.start, avg.getD t 0 - st.init⟩]⟩ := by
  rw [List.getD_eq_getElem?_getD] at h1
  rw [List.getD_eq_getElem?_getD] at hdelta
  unfold detectStep
  simp [h0, h1, hdur, hdelta]

/-- A RUNNING detector is unchanged along a stretch of `+1`
annotations. -/
theorem detectLoop_run_all_one (sid : String) (minDur : Nat) (ann : List Int)
    (avg : List Rat) (ts : List Nat) (st : DetState)
    (h0 : st.start ≠ 0) (hall : ∀ t ∈ ts, ann.getD t 0 = 1) :
    detectLoop sid minDur ann avg st ts = st := by
  induction ts with
  | nil => rfl
  | cons t ts ih =>
    show detectLoop sid minDur ann avg (detectStep sid minDur ann avg st t) ts = st
    rw [detectStep_run_continue sid minDur ann avg st t h0
      (hall t (List.mem_cons_self t ts))]
    exact ih (fun t' ht' => hall t' (List.mem_cons_of_mem t ht'))

/-- The accumulated highlight list only ever grows. -/
theorem detectLoop_acc_mono (sid : String) (minDur : Nat) (ann : List Int)
    (avg : List Rat) (ts : List Nat) :
    ∀ (st : DetState) (h : HL), h ∈ st.acc →
      h ∈ (detectLoop sid minDur ann avg st ts).acc := by
  induction ts with
  | nil => intro st h hh; exact hh
  | cons t ts ih =>
    intro st h hh
    refine ih (detectStep sid minDur ann avg st t) h ?_
    unfold detectStep
    dsimp only
    split_ifs <;>
      first
        | exact hh
        | exact List.mem_append_left _ hh

/-- The index split `[0, len) = [0, i) ++ [i, len)` for `range'`. -/
theorem range'_decompose (s m n : Nat) (h : m ≤ n) :
    List.range' s n = List.range' s m ++ List.range' (s + m) (n - m) := by
  have happ := List.range'_append s m (n - m) 1
  rw [one_mul] at happ
  rw [happ]
  congr 1
  omega

/-- C1 amended: whenever the detector is IDLE before index `i` with
`i >= 1` and reads annotation `+1` at `i`, it enters RUNNING with
`startTime = i` and `initialValue = smoothed[i]`; if the run of `+1`
annotations then lasts until it ends at index `j` with duration
`j - i >= minDuration` and delta `smoothed[j] - smoothed[i] >= 0`, the
highlight `(streamId, i, j - i, delta)` is emitted.  (At `i = 0` the
claim fails because `start_time = 0` doubles as the IDLE sentinel; see
the counterexample.) -/
theorem detector_enters_running_and_emits (sid : String) (minDur : Nat)
    (ann : List Int) (avg : List Rat) (i j : Nat)
    (hi0 : 0 < i) (hij : i < j) (hjlen : j < ann.length)
    (hidle : (detectLoop sid minDur ann avg ⟨0, 0, []⟩ (List.range' 0 i)).start = 0)
    (hanni : ann.getD i 0 = 1)
    (hrun : ∀ k, i < k → k < j → ann.getD k 0 = 1)
    (hannj : ann.getD j 0 ≠ 1)
    (hdur : minDur ≤ j - i)
    (hdelta : 0 ≤ avg.getD j 0 - avg.getD i 0) :
    HL.mk sid i (j - i) (avg.getD j 0 - avg.getD i 0) ∈
      detect_highlight_times sid minDur ann avg := by
  unfold detect_highlight_times
  have e1 : List.range' 0 ann.length =
      List.range' 0 i ++ List.range' i (ann.length - i) := by
    have := range'_decompose 0 i ann.length (by omega)
    simpa using this
  have e2 : List.range' i (ann.length - i) =
      [i] ++ List.range' (i + 1) (ann.length - i - 1) := by
    have := range'_decompose i 1 (ann.length - i) (by omega)
    simpa [List.range'_one] using this
  have e3 : List.range' (i + 1) (ann.length - i - 1) =
      List.range' (i + 1) (j - (i + 1)) ++ List.range' j (ann.length - j) := by
    have hj' : (i + 1) + 1 * (j - (i + 1)) = j := by omega
    have hcnt : ann.length - i - 1 = (ann.length - j) + (j - (i + 1)) := by omega
    have happ := List.range'_append (i + 1) (j - (i + 1)) (ann.length - j) 1
    rw [hj'] at happ
    rw [hcnt, ← happ]
  have e4 : List.range' j (ann.length - j) =
      [j] ++ List.range' (j + 1) (ann.length - j - 1) := by
    have := range'_decompose j 1 (ann.length - j) (by omega)
    simpa [List.range'_one] using this
  rw [e1, detectLoop_append, e2, detectLoop_append, e3, detectLoop_append, e4,
    detectLoop_append]
  set st0 : DetState := detectLoop sid minDur ann avg ⟨0, 0, []⟩ (List.range' 0 i)
    with hst0
  have hstepi : detectLoop sid minDur ann avg st0 [i] =
      (⟨i, avg.getD i 0, st0.acc⟩ : DetState) := by
    show detectStep sid minDur ann avg st0 i = _
    rw [detectStep_start sid minDur ann avg st0 i hidle hanni]
  rw [hstepi]
  have hrunp : detectLoop sid minDur ann avg ⟨i, avg.getD i 0, st0.acc⟩
      (List.range' (i + 1) (j - (i + 1))) = ⟨i, avg.getD i 0, st0.acc⟩ := by
    refine detectLoop_run_all_one sid minDur ann avg _ _ ?_ ?_
    · show i ≠ 0
      omega
    · intro t ht
      rcases List.mem_range'_1.mp ht with ⟨h1, h2⟩
      exact hrun t (by omega) (by omega)
  rw [hrunp]
  have hstepj : detectLoop sid minDur ann avg ⟨i, avg.getD i 0, st0.acc⟩ [j] =
      (⟨0, avg.getD i 0,
        st0.acc ++ [⟨sid, i, j - i, avg.getD j 0 - avg.getD i 0⟩]⟩ : DetState) := by
    show detectStep sid minDur ann avg ⟨i, avg.getD i 0, st0.acc⟩ j = _
    refine detectStep_end_emit sid minDur ann avg ⟨i, avg.getD i 0, st0.acc⟩ j
      ?_ hannj ?_ ?_
    · show i ≠ 0
      omega
    · show ¬ (j - i < minDur)
      omega
    · show ¬ (avg.getD j 0 - avg.getD i 0 < 0)
      exact not_lt.mpr hdelta
  rw [hstepj]
  refine detectLoop_acc_mono sid minDur ann avg _ _ _ ?_
  simp

/-- C1 witness: annotation `[0, 1, 1, 1, 1, 1, 0]` (the `+1` run starts
at index 1), smoothed `[0, 0, 1, 2, 3, 4, 5, 9]`, `minDuration = 5`:
the theorem yields the emitted highlight `(1, 5, 5)`. -/
theorem detector_enters_running_and_emits_witness :
    HL.mk "s" 1 5 5 ∈
      detect_highlight_times "s" 5 [0, 1, 1, 1, 1, 1, 0] [0, 0, 1, 2, 3, 4, 5, 9] := by
  have h := detector_enters_running_and_emits "s" 5 [0, 1, 1, 1, 1, 1, 0]
    [0, 0, 1, 2, 3, 4, 5, 9] 1 6 (by decide) (by decide) (by decide) (by decide)
    (by decide) (fun k h1 h2 => by interval_cases k <;> decide) (by decide)
    (by decide) (by decide)
  have e : HL.mk "s" 1 5 5 = HL.mk "s" 1 (6 - 1)
      ((([0, 0, 1, 2, 3, 4, 5, 9] : List Rat).getD 6 0) -
        (([0, 0, 1, 2, 3, 4, 5, 9] : List Rat).getD 1 0)) := by
    decide
  rw [e]
  exact h

/-- The trend annotation has one entry per adjacent pair. -/
theorem annot_length (avg : List Rat) :
    (create_highlight_annot avg).length = avg.length - 1 := by
  simp [create_highlight_annot]

/-- Inside its range, the trend annotation reads `1` exactly when the
smoothed series strictly increases at that index. -/
theorem annot_getD_one_iff (avg : List Rat) (k : Nat)
    (hk : k < (create_highlight_annot avg).length) :
    (create_highlight_annot avg).getD k 0 = 1 ↔
      avg.getD k 0 < avg.getD (k + 1) 0 := by
  rw [List.getD_eq_getElem _ _ hk]
  unfold create_highlight_annot
  rw [List.getElem_map, List.getElem_range]
  split_ifs with h1 h2
  · exact iff_of_true rfl h1
  · exact iff_of_false (by decide) h1
  · exact iff_of_false (by decide) h1

/-- Chaining adjacent strict increases of `avg.getD` along an index
interval. -/
theorem chain_lt_getD (avg : List Rat) :
    ∀ (b a : Nat), a < b →
      (∀ k, a ≤ k → k < b → avg.getD k 0 < avg.getD (k + 1) 0) →
      avg.getD a 0 < avg.getD b 0 := by
  intro b
  induction b with
  | zero =>
    intro a h
    exact absurd h (Nat.not_lt_zero a)
  | succ b ihb =>
    intro a hab hch
    rcases Nat.lt_succ_iff_lt_or_eq.mp hab with h | rfl
    · exact lt_trans (ihb a h (fun k hk1 hk2 => hch k hk1 (by omega)))
        (hch b (by omega) (by omega))
    · exact hch a (le_refl a) (by omega)

/-- The inductive core of C10: processing the index interval
`[t, t + n)` of the trend annotation derived from `avg` preserves (a)
the running-state invariant — when a run is open, its start lies below
the cursor, its initial value is the smoothed value at the start, and
the smoothed series strictly increases on `[start, t)` — and (b)
positivity of every accumulated frequency delta. -/
theorem detect_fdelta_aux (sid : String) (minDur : Nat) (avg : List Rat) :
    ∀ (n t : Nat) (st : DetState),
      t + n ≤ (create_highlight_annot avg).length →
      (st.start ≠ 0 → st.start < t ∧ st.init = avg.getD st.start 0 ∧
        ∀ k, st.start ≤ k → k < t → avg.getD k 0 < avg.getD (k + 1) 0) →
      (∀ h ∈ st.acc, 0 < h.fdelta) →
      ∀ h ∈ (detectLoop sid minDur (create_highlight_annot avg) avg st
              (List.range' t n)).acc, 0 < h.fdelta := by
  intro n
  induction n with
  | zero =>
    intro t st _ _ hacc h hh
    exact hacc h hh
  | succ n ih =>
    intro t st hlen hinv hacc h hh
    rw [List.range'_succ] at hh
    have ht : t < (create_highlight_annot avg).length := by omega
    set A := create_highlight_annot avg with hA
    by_cases ca : A.getD t 0 = 1
    · by_cases cs : st.start = 0
      · rw [show detectLoop sid minDur A avg st (t :: List.range' (t + 1) n) =
            detectLoop sid minDur A avg (detectStep sid minDur A avg st t)
              (List.range' (t + 1) n) from rfl,
          detectStep_start sid minDur A avg st t cs ca] at hh
        refine ih (t + 1) ⟨t, avg.getD t 0, st.acc⟩ (by omega) ?_ hacc h hh
        intro h0
        have htne : t ≠ 0 := h0
        dsimp only
        refine ⟨by omega, rfl, ?_⟩
        intro k hk1 hk2
        have hkt : k = t := by omega
        subst hkt
        exact (annot_getD_one_iff avg k ht).mp ca
      · rw [show detectLoop sid minDur A avg st (t :: List.range' (t + 1) n) =
            detectLoop sid minDur A avg (detectStep sid minDur A avg st t)
              (List.range' (t + 1) n) from rfl,
          detectStep_run_continue sid minDur A avg st t cs ca] at hh
        obtain ⟨hlt, hinit, hch⟩ := hinv cs
        refine ih (t + 1) st (by omega) ?_ hacc h hh
        intro _
        refine ⟨by omega, hinit, ?_⟩
        intro k hk1 hk2
        by_cases hkt : k = t
        · subst hkt
          exact (annot_getD_one_iff avg k ht).mp ca
        · exact hch k hk1 (by omega)
    · by_cases cs : st.start = 0
      · rw [show detectLoop sid minDur A avg st (t :: List.range' (t + 1) n) =
            detectLoop sid minDur A avg (detectStep sid minDur A avg st t)
              (List.range' (t + 1) n) from rfl,
          detectStep_idle_skip sid minDur A avg st t cs ca] at hh
        refine ih (t + 1) st (by omega) ?_ hacc h hh
        intro h0
        exact absurd cs h0
      · obtain ⟨hlt, hinit, hch⟩ := hinv cs
        have hpos : 0 < avg.getD t 0 - st.init := by
          rw [hinit]
          have := chain_lt_getD avg t st.start hlt hch
          exact sub_pos.mpr this
        by_cases cdur : t - st.start < minDur
        · rw [show detectLoop sid minDur A avg st (t :: List.range' (t + 1) n) =
              detectLoop sid minDur A avg (detectStep sid minDur A avg st t)
                (List.range' (t + 1) n) from rfl,
            detectStep_end_short sid minDur A avg st t cs ca cdur] at hh
          refine ih (t + 1) ⟨0, st.init, st.acc⟩ (by omega) ?_ hacc h hh
          intro h0
          exact absurd rfl h0
        · rw [show detectLoop sid minDur A avg st (t :: List.range' (t + 1) n) =
              detectLoop sid minDur A avg (detectStep sid minDur A avg st t)
                (List.range' (t + 1) n) from rfl,
            detectStep_end_emit sid minDur A avg st t cs ca cdur
              (not_lt.mpr (le_of_lt hpos))] at hh
          refine ih (t + 1)
            ⟨0, st.init,
              st.acc ++ [⟨sid, st.start, t - st.start, avg.getD t 0 - st.init⟩]⟩
            (by omega) ?_ ?_ h hh
          · intro h0
            exact absurd rfl h0
          · intro h' hh'
            rcases List.mem_append.mp hh' with hin | hin
            · exact hacc h' hin
            · rcases List.mem_singleton.mp hin with rfl
              exact hpos

/-- C10: when the trend annotation is computed from the same smoothed
series by `create_highlight_annotation`, every highlight emitted by
`detect_highlight_times` has a strictly positive frequency delta — an
open run means the smoothed series strictly increased from the start
index to the closing index, so the `delta < 0` discard branch can never
fire. -/
theorem detect_fdelta_pos (sid : String) (minDur : Nat) (avg : List Rat) :
    ∀ h ∈ detect_highlight_times sid minDur (create_highlight_annot avg) avg,
      0 < h.fdelta := by
  intro h hh
  unfold detect_highlight_times at hh
  refine detect_fdelta_aux sid minDur avg (create_highlight_annot avg).length 0
    ⟨0, 0, []⟩ (by omega) ?_ ?_ h hh
  · intro h0
    exact absurd rfl h0
  · intro h' hh'
    simp at hh'

/-- C10 witness: the smoothed series `[5, 1, 2, 3, 4, 0]` yields the
annotation `[-1, 1, 1, 1, -1]` and the single highlight `(1, 3, 3)`,
whose delta 3 is positive. -/
theorem detect_fdelta_pos_witness :
    HL.mk "s" 1 3 3 ∈
      detect_highlight_times "s" 2 (create_highlight_annot [5, 1, 2, 3, 4, 0])
        [5, 1, 2, 3, 4, 0] ∧
    (0 : Rat) < (HL.mk "s" 1 3 3).fdelta := by
  constructor
  · decide
  · exact detect_fdelta_pos "s" 2 [5, 1, 2, 3, 4, 0] (HL.mk "s" 1 3 3) (by decide)

/-- With weighted-score replacement off, a successful `seen_tuples`
scan leaves the list unchanged and certifies that the candidate is a
substring of no accepted tuple. -/
theorem scanSeen_off (msg : List Char) (score : Nat) :
    ∀ (seen seen' : List KTup), scanSeen false msg score seen = some seen' →
      seen' = seen ∧ ∀ t ∈ seen, ¬ (msg <:+: t.msg) := by
  intro seen
  induction seen with
  | nil =>
    intro seen' h
    unfold scanSeen at h
    refine ⟨by injection h with h'; exact h'.symm, ?_⟩
    intro t ht
    exact absurd ht (List.not_mem_nil t)
  | cons t rest ih =>
    intro seen' h
    unfold scanSeen at h
    by_cases hinf : msg <:+: t.msg
    · rw [if_pos hinf] at h
      simp at h
    · rw [if_neg hinf] at h
      cases hs : scanSeen false msg score rest with
      | none =>
        rw [hs] at h
        simp at h
      | some rest' =>
        rw [hs] at h
        obtain ⟨h1, h2⟩ := ih rest' hs
        injection h with h'
        subst h1
        refine ⟨h'.symm, ?_⟩
        intro u hu
        rcases List.mem_cons.mp hu with rfl | hu
        · exact hinf
        · exact h2 u hu

/-- With replacement off, a non-skipped candidate is appended to the
unchanged `seen_tuples`, its size being the current sweep size, and it
is either punctuation-only or a substring of no accepted tuple. -/
theorem processCandidate_off (cfg : KFConfig) (s : Nat) (seen seen' : List KTup)
    (c : List (List Char) × Nat)
    (h : processCandidate cfg false s seen c = some seen') :
    ∃ msg freq, seen' = seen ++ [⟨msg, freq, s, freq * s⟩] ∧
      (allPunct cfg.punctuation msg = true ∨ ∀ t ∈ seen, ¬ (msg <:+: t.msg)) := by
  unfold processCandidate at h
  dsimp only at h
  split_ifs at h with h1 h2 h3 h4 h5 h6 h7
  all_goals try (injection h with h'; exact ⟨_, _, h'.symm, Or.inl h6⟩)
  cases hs : scanSeen false (fixToken cfg.fixPhrases (List.intercalate [' '] c.1))
      (c.2 * s) seen with
  | none =>
    rw [hs] at h
    exact Option.noConfusion h
  | some rest =>
    rw [hs] at h
    obtain ⟨hrest, hnoinf⟩ := scanSeen_off _ _ seen rest hs
    subst hrest
    injection h with h'
    exact ⟨_, _, h'.symm, Or.inr hnoinf⟩

/-- `processCandidate` (replacement off) preserves the sweep
invariant. -/
theorem processCandidate_inv (cfg : KFConfig) (s : Nat) (seen seen' : List KTup)
    (c : List (List Char) × Nat) (hinv : SeenInv cfg.punctuation s seen)
    (h : processCandidate cfg false s seen c = some seen') :
    SeenInv cfg.punctuation s seen' := by
  obtain ⟨msg, freq, rfl, hcase⟩ := processCandidate_off cfg s seen seen' c h
  constructor
  · intro t ht
    rcases List.mem_append.mp ht with ht | ht
    · exact hinv.1 t ht
    · rcases List.mem_singleton.mp ht with rfl
      exact le_refl s
  · intro t1 ht1 t2 ht2 hsz hnp
    rcases List.mem_append.mp ht1 with ht1 | ht1 <;>
      rcases List.mem_append.mp ht2 with ht2 | ht2
    · exact hinv.2 t1 ht1 t2 ht2 hsz hnp
    · rcases List.mem_singleton.mp ht2 with rfl
      rcases hcase with hpunct | hnoinf
      · rw [hpunct] at hnp
        cases hnp
      · exact hnoinf t1 ht1
    · rcases List.mem_singleton.mp ht1 with rfl
      have hb := hinv.1 t2 ht2
      have hsz' : t2.size < s := hsz
      omega
    · rcases List.mem_singleton.mp ht1 with rfl
      rcases List.mem_singleton.mp ht2 with rfl
      have hsz' : s < s := hsz
      omega

/-- The per-size candidate loop (replacement off) preserves the sweep
invariant, both when it falls through and when it returns early. -/
theorem processSize_inv (cfg : KFConfig) (s maxAmt minSize : Nat) :
    ∀ (cands : List (List (List Char) × Nat)) (seen : List KTup),
      SeenInv cfg.punctuation s seen →
      ∀ out,
        processSize cfg false s maxAmt minSize seen cands = Sum.inl out ∨
        processSize cfg false s maxAmt minSize seen cands = Sum.inr out →
        SeenInv cfg.punctuation s out := by
  intro cands
  induction cands with
  | nil =>
    intro seen hinv out hout
    rcases hout with hout | hout
    · unfold processSize at hout
      injection hout with h'
      exact h' ▸ hinv
    · unfold processSize at hout
      cases hout
  | cons c cs ih =>
    intro seen hinv out hout
    unfold processSize at hout
    cases hc : processCandidate cfg false s seen c with
    | none =>
      rw [hc] at hout
      exact ih seen hinv out hout
    | some seen' =>
      rw [hc] at hout
      dsimp only at hout
      have hinv' := processCandidate_inv cfg s seen seen' c hinv hc
      by_cases hstop : seen'.length = maxAmt ∨ s = minSize
      · rw [if_pos hstop] at hout
        rcases hout with hout | hout
        · cases hout
        · injection hout with h'
          exact h' ▸ hinv'
      · rw [if_neg hstop] at hout
        exact ih seen' hinv' out hout

/-- The sweep invariant weakens along decreasing size bounds. -/
theorem SeenInv_mono (punct : List Char) (s s' : Nat) (h : s' ≤ s)
    (seen : List KTup) : SeenInv punct s seen → SeenInv punct s' seen :=
  fun hinv => ⟨fun t ht => le_trans h (hinv.1 t ht), hinv.2⟩

/-- The sweep invariant transfers along permutations. -/
theorem SeenInv_perm (punct : List Char) (s : Nat) (l1 l2 : List KTup)
    (hp : l1.Perm l2) : SeenInv punct s l1 → SeenInv punct s l2 :=
  fun hinv =>
    ⟨fun t ht => hinv.1 t (hp.mem_iff.mpr ht),
     fun t1 ht1 t2 ht2 => hinv.2 t1 (hp.mem_iff.mpr ht1) t2 (hp.mem_iff.mpr ht2)⟩

/-- Every swept size is bounded by the maximum n-gram size. -/
theorem sizesDesc_le (hi lo s : Nat) : s ∈ sizesDesc hi lo → s ≤ hi := by
  unfold sizesDesc
  intro h
  rw [List.mem_reverse] at h
  rcases List.mem_range'_1.mp h with ⟨h1, h2⟩
  omega

/-- The swept sizes are processed in (strictly) decreasing order. -/
theorem sizesDesc_pairwise (hi lo : Nat) :
    (sizesDesc hi lo).Pairwise (fun a b => b ≤ a) := by
  unfold sizesDesc
  rw [List.pairwise_reverse]
  have h : (List.range' lo (hi + 1 - lo)).Pairwise (· < ·) := by
    rw [List.range'_eq_map_range, List.pairwise_map]
    exact (List.pairwise_lt_range _).imp (fun hab => by omega)
  exact h.imp (fun hab => le_of_lt hab)

/-- The whole sweep (replacement off) establishes the pairwise
no-substring property. -/
theorem sweep_inv (cfg : KFConfig) (tokens : List (List Char))
    (maxAmt minSize topK : Nat) :
    ∀ (ss : List Nat) (seen : List KTup) (s0 : Nat),
      SeenInv cfg.punctuation s0 seen →
      (∀ s ∈ ss, s ≤ s0) →
      ss.Pairwise (fun a b => b ≤ a) →
      SeenInv cfg.punctuation 0
        (sweep cfg false tokens maxAmt minSize topK seen ss) := by
  intro ss
  induction ss with
  | nil =>
    intro seen s0 hinv _ _
    exact SeenInv_mono cfg.punctuation s0 0 (Nat.zero_le s0) seen hinv
  | cons s ss' ih =>
    intro seen s0 hinv hle hpw
    have hinvs : SeenInv cfg.punctuation s seen :=
      SeenInv_mono cfg.punctuation s0 s (hle s (List.mem_cons_self s ss')) seen hinv
    unfold sweep
    cases hps : processSize cfg false s maxAmt minSize seen
        (mostCommon topK (ngrams s tokens)) with
    | inl seen' =>
      refine ih seen' s ?_ ?_ (List.pairwise_cons.mp hpw).2
      · exact processSize_inv cfg s maxAmt minSize _ seen hinvs seen' (Or.inl hps)
      · exact (List.pairwise_cons.mp hpw).1
    | inr fin =>
      exact SeenInv_mono cfg.punctuation s 0 (Nat.zero_le s) fin
        (processSize_inv cfg s maxAmt minSize _ seen hinvs fin (Or.inr hps))

/-- Scanning past a non-containing tuple keeps it in place. -/
theorem scanSeen_cons_skip (replace : Bool) (msg : List Char) (score : Nat)
    (u : KTup) (rest : List KTup) (h : ¬ (msg <:+: u.msg)) :
    scanSeen replace msg score (u :: rest) =
      Option.map (fun r => u :: r) (scanSeen replace msg score rest) := by
  show (if msg <:+: u.msg then
          if replace = false then none
          else if u.score < score then some rest else none
        else
          match scanSeen replace msg score rest with
          | none => none
          | some rest' => some (u :: rest')) =
    Option.map (fun r => u :: r) (scanSeen replace msg score rest)
  rw [if_neg h]
  cases hs : scanSeen replace msg score rest with
  | none => rfl
  | some rest' => rfl

/-- With replacement on, hitting a containing tuple of lower weighted
score removes it (the `break` then lets the caller append). -/
theorem scanSeen_cons_evict (msg : List Char) (score : Nat) (t : KTup)
    (rest : List KTup) (hinf : msg <:+: t.msg) (hsc : t.score < score) :
    scanSeen true msg score (t :: rest) = some rest := by
  show (if msg <:+: t.msg then
          if true = false then none
          else if t.score < score then some rest else none
        else
          match scanSeen true msg score rest with
          | none => none
          | some rest' => some (t :: rest')) = some rest
  rw [if_pos hinf, if_neg (by decide), if_pos hsc]

/-- C8 amended.  First part (replacement off): in the returned
keyphrase list, no non-punctuation tuple of strictly smaller n-gram
size has its text contained in a larger-size tuple's text —
punctuation-only candidates are exempt from the suppression (they are
only filtered by exact equality), which is what the counterexample
exhibits.  Second part (replacement on): a candidate whose weighted
score beats the first already-accepted tuple containing it evicts that
tuple from `seen_tuples` (after which the loop appends the
candidate). -/
theorem ngram_substring_suppression (cfg : KFConfig) (tokens : List (List Char))
    (maxN maxAmt minN topK : Nat) :
    (∀ t1 ∈ ngram_keyphrase_analysis cfg tokens maxN maxAmt minN topK false,
      ∀ t2 ∈ ngram_keyphrase_analysis cfg tokens maxN maxAmt minN topK false,
        t2.size < t1.size → allPunct cfg.punctuation t2.msg = false →
          ¬ (t2.msg <:+: t1.msg)) ∧
    (∀ (msg : List Char) (score : Nat) (pre post : List KTup) (t : KTup),
      (∀ u ∈ pre, ¬ (msg <:+: u.msg)) → (msg <:+: t.msg) → t.score < score →
        scanSeen true msg score (pre ++ t :: post) = some (pre ++ post)) := by
  constructor
  · have hinv : SeenInv cfg.punctuation 0
        (sweep cfg false tokens maxAmt minN topK [] (sizesDesc maxN minN)) := by
      refine sweep_inv cfg tokens maxAmt minN topK (sizesDesc maxN minN) [] maxN
        ⟨?_, ?_⟩ (sizesDesc_le maxN minN) (sizesDesc_pairwise maxN minN)
      · intro t ht
        exact absurd ht (List.not_mem_nil t)
      · intro t1 ht1
        exact absurd ht1 (List.not_mem_nil t1)
    have hperm : (sweep cfg false tokens maxAmt minN topK []
        (sizesDesc maxN minN)).Perm
        (ngram_keyphrase_analysis cfg tokens maxN maxAmt minN topK false) :=
      (List.perm_insertionSort _ _).symm
    exact (SeenInv_perm cfg.punctuation 0 _ _ hperm hinv).2
  · intro msg score pre
    induction pre with
    | nil =>
      intro post t hpre hinf hsc
      rw [List.nil_append, List.nil_append]
      exact scanSeen_cons_evict msg score t post hinf hsc
    | cons u pre' ih =>
      intro post t hpre hinf hsc
      rw [List.cons_append, List.cons_append,
        scanSeen_cons_skip true msg score u (pre' ++ t :: post)
          (hpre u (List.mem_cons_self u pre')),
        ih post t (fun v hv => hpre v (List.mem_cons_of_mem u hv)) hinf hsc]
      rfl

/-- C8 witness: on the token stream
`a b <end> a b <end> d <end> d <end>` the analysis returns the 2-gram
`a b` and the 1-gram `d`; the theorem's first part proves `d` is not a
substring of `a b`, and its second part computes an eviction step for
an outscoring contained candidate. -/
theorem ngram_substring_suppression_witness :
    ¬ ("d".toList <:+: "a b".toList) ∧
    scanSeen true "x".toList 5 [⟨"x y".toList, 2, 2, 4⟩] = some [] := by
  constructor
  · exact (ngram_substring_suppression ⟨[], ['!', '?'], [], []⟩
      ["a".toList, "b".toList, PHRASE_END_DELIM, "a".toList, "b".toList,
       PHRASE_END_DELIM, "d".toList, PHRASE_END_DELIM, "d".toList,
       PHRASE_END_DELIM] 2 5 1 20).1
      ⟨"a b".toList, 2, 2, 4⟩ (by decide) ⟨"d".toList, 2, 1, 2⟩ (by decide)
      (by decide) (by decide)
  · have h := (ngram_substring_suppression ⟨[], [], [], []⟩ [] 0 0 0 0).2
      "x".toList 5 [] [] ⟨"x y".toList, 2, 2, 4⟩
      (fun u hu => absurd hu (List.not_mem_nil u)) (by decide) (by decide)
    simpa using h

end StreamAnalyser
